import Mathlib

/-!
Verification of the `collectionhelpers` decoration layer.

The layer upgrades minimal container types into full-featured sequences and
mappings.  We shallowly embed the two components of `collectionhelpers.py`:

* the Mapping Miss Dispatcher (`mapping_helper`): raw lookup is modelled as
  `κ → Option ν` (`some` = Found, `none` = NotFound, i.e. `KeyError`), and the
  optional `__missing__` hook as `Option (κ → Except Err ν)`.  Each augmented
  operation additionally returns a `Nat` counting how many times the fallback
  hook was invoked during the call.

* the Sequence Index Normalizer (`sequence_helper`): the decorated container
  is modelled as a `List α`; the author-supplied primitives (`_getitem`,
  `_setitem`, `_delitem`, `_insert`) only accept in-range non-negative
  indices, which we model by `prim_get`, `prim_set`, `prim_del`, `prim_insert`
  returning `Err.primViolation` outside their contract (the `assert`
  statements of the example containers in `test.py`).  Mutating augmented
  operations return `List α × Option Err`: the container state at the moment
  the operation finished or raised, so partial mutation before a raised error
  is observable.
-/

namespace CollectionHelpers

/-- Failure kinds of the layer.  `typeMismatch` = `TypeError`,
`outOfRange` = `IndexError`, `valueError` = `ValueError` from
`slice.indices` on a zero step, `sizeMismatch` = the extended-slice
`ValueError` carrying both lengths, `keyNotFound` = `KeyError`,
`primViolation` = an author primitive called outside its contract
(the `AssertionError` of the example containers). -/
inductive Err where
  | typeMismatch
  | outOfRange
  | valueError
  | sizeMismatch (got expected : Nat)
  | keyNotFound
  | primViolation
deriving DecidableEq

/-! ## Mapping Miss Dispatcher (`mapping_helper`) -/

/-- The wrapped `__getitem__` installed by `mapping_helper` (lines 18-30 of
`collectionhelpers.py`): call the raw `_getitem`; on `KeyError`, call
`__missing__` if the type defines it, else re-raise.  The second component
counts invocations of the `__missing__` hook. -/
def mapGetAug {κ ν : Type} (raw : κ → Option ν) (hook : Option (κ → Except Err ν))
    (k : κ) : Except Err ν × Nat :=
  match raw k with
  | some v => (Except.ok v, 0)
  | none =>
    match hook with
    | some missing => (missing k, 1)
    | none => (Except.error Err.keyNotFound, 0)

/-- The synthesized `__contains__` (lines 34-44): it calls the raw
`_getitem`, never the wrapped one, so the `__missing__` hook (passed here
only to show it is ignored) is never invoked. -/
def mapContains {κ ν : Type} (raw : κ → Option ν) (hook : Option (κ → Except Err ν))
    (k : κ) : Bool × Nat :=
  match raw k with
  | some _ => (true, 0)
  | none => (false, 0)

/-- The synthesized `get` with default (lines 47-55): raw `_getitem`,
returning `default` on `KeyError`; the hook is never invoked. -/
def mapGetDefault {κ ν : Type} (raw : κ → Option ν) (hook : Option (κ → Except Err ν))
    (k : κ) (default : ν) : ν × Nat :=
  match raw k with
  | some v => (v, 0)
  | none => (default, 0)

/-- The `mapping_helper` decorator itself (lines 7-57): if the class is not
a `Mapping`, raise `TypeError("can only help mappings")` at decoration
(attachment) time; otherwise produce the augmented lookup operation.  The
offending type's name is a parameter to show the error does not depend
on it. -/
def mapping_helper {κ ν : Type} (isMapping : Bool) (typeName : String)
    (raw : κ → Option ν) (hook : Option (κ → Except Err ν)) :
    Except String (κ → Except Err ν × Nat) :=
  if isMapping then Except.ok (fun k => mapGetAug raw hook k)
  else Except.error "can only help mappings"

/-- The attachment guard of `sequence_helper` (lines 69-70): a class that
is not a `Sequence` is rejected at decoration time with
`TypeError("can only help sequences")`. -/
def sequence_helper_attach (isSequence : Bool) (typeName : String) :
    Except String Unit :=
  if isSequence then Except.ok ()
  else Except.error "can only help sequences"

/-- Test whether `pat` starts `l` (over characters). -/
def listPref : List Char → List Char → Bool
  | [], _ => true
  | _ :: _, [] => false
  | a :: as, b :: bs => a = b && listPref as bs

/-- Test whether `pat` occurs as a contiguous substring of `l`.
Used to formalize "the error condition names the offending type". -/
def occursIn (pat : List Char) : List Char → Bool
  | [] => listPref pat []
  | b :: bs => listPref pat (b :: bs) || occursIn pat bs

/-! ## Sequence Index Normalizer (`sequence_helper`)

Slice normalization.  `deslice` (line 72-76) is
`range(*index.indices(len(self)))`; `Slice.indices` embeds CPython's
`slice.indices(length)` algorithm, and `PyRange.toList` the resulting
`range` object's element sequence. -/

/-- A Python slice: optional start/stop/step. -/
structure Slice where
  start : Option Int
  stop : Option Int
  step : Option Int

/-- A normalized range triple, as returned by `slice.indices(length)`. -/
structure PyRange where
  start : Int
  stop : Int
  step : Int

/-- The number of elements of `range(start, stop, step)` (`step ≠ 0`). -/
def rangeLen (start stop step : Int) : Nat :=
  (if 0 < step then (stop - start + step - 1) / step
   else (start - stop - step - 1) / (-step)).toNat

/-- The elements of `range(start, stop, step)` in order. -/
def rangeList (start stop step : Int) : List Int :=
  (List.range (rangeLen start stop step)).map (fun k : Nat => start + (k : Int) * step)

/-- The elements of a normalized range, in range order. -/
def PyRange.toList (r : PyRange) : List Int :=
  rangeList r.start r.stop r.step

/-- The effective step of a slice (`1` when absent). -/
def sliceStep (s : Slice) : Int := s.step.getD 1

/-- Lower bound used by `slice.indices`: `-1` for negative step, else `0`. -/
def sliceLower (s : Slice) : Int := if sliceStep s < 0 then -1 else 0

/-- Upper bound used by `slice.indices`: `length - 1` for negative step,
else `length`. -/
def sliceUpper (s : Slice) (length : Nat) : Int :=
  if sliceStep s < 0 then (length : Int) - 1 else (length : Int)

/-- Clamping of an explicit slice bound by `slice.indices`: negative values
are wrapped by adding `length` then clamped below at `lower`; non-negative
values are clamped above at `upper`. -/
def adjustIndex (length : Nat) (lower upper i : Int) : Int :=
  if i < 0 then max (i + (length : Int)) lower else min i upper

/-- Normalized start of a slice against a container length. -/
def normStart (s : Slice) (length : Nat) : Int :=
  match s.start with
  | none => if sliceStep s < 0 then sliceUpper s length else sliceLower s
  | some i => adjustIndex length (sliceLower s) (sliceUpper s length) i

/-- Normalized stop of a slice against a container length. -/
def normStop (s : Slice) (length : Nat) : Int :=
  match s.stop with
  | none => if sliceStep s < 0 then sliceLower s else sliceUpper s length
  | some i => adjustIndex length (sliceLower s) (sliceUpper s length) i

/-- Embedding of `slice.indices(length)`: fails with `ValueError` on a zero
step, else returns the normalized `(start, stop, step)` triple. -/
def Slice.indices (s : Slice) (length : Nat) : Except Err PyRange :=
  if sliceStep s = 0 then Except.error Err.valueError
  else Except.ok ⟨normStart s length, normStop s length, sliceStep s⟩

/-- Embedding of `deslice` (lines 72-76): `range(*index.indices(len(self)))`. -/
def deslice (length : Nat) (s : Slice) : Except Err PyRange :=
  Slice.indices s length

/-- The element list of the Index Range of a slice over a given length
(empty in the zero-step error case, which callers exclude). -/
def normRange (length : Nat) (s : Slice) : List Int :=
  match deslice length s with
  | Except.ok r => r.toList
  | Except.error _ => []

/-! Primitive operations of the decorated sequence container: only valid
on simple in-range non-negative indices (`[0, len)`, or `[0, len]` for
insert), per the contract in the module docstring and the `assert`s of
the `Tuple`/`List` example containers in `test.py`. -/

/-- Primitive `_getitem`. -/
def prim_get {α : Type} (xs : List α) (i : Int) : Except Err α :=
  if 0 ≤ i then
    match xs.get? i.toNat with
    | some v => Except.ok v
    | none => Except.error Err.primViolation
  else Except.error Err.primViolation

/-- Primitive `_setitem`. -/
def prim_set {α : Type} (xs : List α) (i : Int) (v : α) : Except Err (List α) :=
  if 0 ≤ i ∧ i.toNat < xs.length then Except.ok (xs.set i.toNat v)
  else Except.error Err.primViolation

/-- Primitive `_delitem`. -/
def prim_del {α : Type} (xs : List α) (i : Int) : Except Err (List α) :=
  if 0 ≤ i ∧ i.toNat < xs.length then Except.ok (xs.eraseIdx i.toNat)
  else Except.error Err.primViolation

/-- Insertion into a list at a position (the behavior of `list.insert`
restricted to `0 ≤ i ≤ len`, which is all the primitive contract allows). -/
def listInsertAt {α : Type} : List α → Nat → α → List α
  | xs, 0, v => v :: xs
  | [], _ + 1, v => [v]
  | x :: xs, n + 1, v => x :: listInsertAt xs n v

/-- Primitive `insert`. -/
def prim_insert {α : Type} (xs : List α) (i : Int) (v : α) : Except Err (List α) :=
  if 0 ≤ i ∧ i.toNat ≤ xs.length then Except.ok (listInsertAt xs i.toNat v)
  else Except.error Err.primViolation

/-! Index normalization helpers (lines 78-100). -/

/-- Embedding of `_posintify` restricted to integer indices: wraparound of
negatives (the `__index__` conversion and `TypeError` for non-integers is
host-language typing, outside the integer-index model). -/
def _posintify (length : Nat) (index : Int) : Int :=
  if index < 0 then index + (length : Int) else index

/-- Embedding of `posintify` (lines 88-92): wraparound, then range check
against `[0, length)`; `IndexError` outside. -/
def posintify (length : Nat) (index : Int) : Except Err Int :=
  let index := _posintify length index
  if index < 0 ∨ (length : Int) ≤ index then Except.error Err.outOfRange
  else Except.ok index

/-- Embedding of `posinttruncify` (lines 94-100): wraparound, then clamp
into `[0, length]`; never fails. -/
def posinttruncify (length : Nat) (index : Int) : Int :=
  let index := _posintify length index
  if index < 0 then 0
  else if (length : Int) < index then (length : Int)
  else index

/-! The augmented operations (lines 102-171). -/

/-- The slice branch of the wrapped `__getitem__`: primitive get at each
index of the Index Range in range order, collecting the results. -/
def getLoop {α : Type} (xs : List α) : List Int → Except Err (List α)
  | [] => Except.ok []
  | i :: rest =>
    match prim_get xs i with
    | Except.error e => Except.error e
    | Except.ok v =>
      match getLoop xs rest with
      | Except.error e => Except.error e
      | Except.ok vs => Except.ok (v :: vs)

/-- Wrapped `__getitem__`, integer form (line 111):
`_getitem(self, posintify(self, index))`. -/
def getitem_int {α : Type} (xs : List α) (index : Int) : Except Err α :=
  match posintify xs.length index with
  | Except.error e => Except.error e
  | Except.ok i => prim_get xs i

/-- Wrapped `__getitem__`, slice form (line 109):
`type(self)(_getitem(self, i) for i in deslice(self, index))`. -/
def getitem_slice {α : Type} (xs : List α) (index : Slice) : Except Err (List α) :=
  match deslice xs.length index with
  | Except.error e => Except.error e
  | Except.ok r => getLoop xs r.toList

/-- Sequential primitive deletes; on a primitive failure the container
keeps the state reached so far (the exception escapes mid-mutation). -/
def delLoop {α : Type} (xs : List α) : List Int → List α × Option Err
  | [] => (xs, none)
  | i :: rest =>
    match prim_del xs i with
    | Except.ok xs' => delLoop xs' rest
    | Except.error e => (xs, some e)

/-- Wrapped `__delitem__`, integer form (line 124). -/
def delitem_int {α : Type} (xs : List α) (index : Int) : List α × Option Err :=
  match posintify xs.length index with
  | Except.error e => (xs, some e)
  | Except.ok i =>
    match prim_del xs i with
    | Except.ok xs' => (xs', none)
    | Except.error e => (xs, some e)

/-- Wrapped `__delitem__`, slice form (lines 120-122):
`for i in reversed(deslice(self, index)): _delitem(self, i)`. -/
def delitem_slice {α : Type} (xs : List α) (index : Slice) : List α × Option Err :=
  match deslice xs.length index with
  | Except.error e => (xs, some e)
  | Except.ok r => delLoop xs r.toList.reverse

/-- Wrapped `insert` (lines 127-131):
`_insert(self, posinttruncify(self, index), value)`. -/
def insert_aug {α : Type} (xs : List α) (index : Int) (value : α) :
    Except Err (List α) :=
  prim_insert xs (posinttruncify xs.length index) value

/-- Wrapped `__setitem__`, integer form (line 170). -/
def setitem_int {α : Type} (xs : List α) (index : Int) (value : α) :
    Except Err (List α) :=
  match posintify xs.length index with
  | Except.error e => Except.error e
  | Except.ok i => prim_set xs i value

/-- The extended-slice assignment loop (lines 147-148):
`for i, v in zip(indices, values): self[i] = v` — note it goes through the
wrapped integer `__setitem__`. -/
def setLoop {α : Type} (xs : List α) : List (Int × α) → List α × Option Err
  | [] => (xs, none)
  | (i, v) :: rest =>
    match setitem_int xs i v with
    | Except.ok xs' => setLoop xs' rest
    | Except.error e => (xs, some e)

/-- The insertion phase of contiguous-slice assignment (lines 167-168):
`for i, value in enumerate(values, start=indices.start): _insert(self, i, value)`. -/
def insertLoop {α : Type} (xs : List α) (start : Int) : List α → List α × Option Err
  | [] => (xs, none)
  | v :: vs =>
    match prim_insert xs start v with
    | Except.ok xs' => insertLoop xs' (start + 1) vs
    | Except.error e => (xs, some e)

/-- Extended-slice assignment (lines 138-148): length check first (before
any mutation), then pairwise assignment in range order. -/
def extendedAssign {α : Type} (xs : List α) (r : PyRange) (values : List α) :
    List α × Option Err :=
  let indices := r.toList
  if values.length ≠ indices.length then
    (xs, some (Err.sizeMismatch values.length indices.length))
  else setLoop xs (indices.zip values)

/-- Contiguous-slice assignment (lines 149-168): delete every range
position highest index first, then insert the source elements one at a
time starting at the range's start.  `values` is the element sequence of
the assigned source: when the source is the container itself the code
snapshots it (`values = tuple(value)`) before mutating, so `values` is the
pre-call contents; a distinct source is consumed lazily, which over a
non-aliased source yields exactly its element list. -/
def contigAssign {α : Type} (xs : List α) (r : PyRange) (values : List α) :
    List α × Option Err :=
  match delLoop xs r.toList.reverse with
  | (xs', some e) => (xs', some e)
  | (xs', none) => insertLoop xs' r.start values

/-- Wrapped `__setitem__`, slice form (lines 136-168): normalize the slice
(`ValueError` on zero step, before anything else), then dispatch on
`index.step is not None and index.step != 1`. -/
def setitem_slice {α : Type} (xs : List α) (index : Slice) (values : List α) :
    List α × Option Err :=
  match deslice xs.length index with
  | Except.error e => (xs, some e)
  | Except.ok r =>
    if index.step.isSome ∧ index.step ≠ some 1 then extendedAssign xs r values
    else contigAssign xs r values

/-- Slice assignment whose source is the container itself (`value is self`,
line 159): the code snapshots the container before mutating, so the element
sequence assigned is the pre-call contents `xs`. -/
def setitem_slice_self {α : Type} (xs : List α) (index : Slice) :
    List α × Option Err :=
  setitem_slice xs index xs


/-! ## Lemmas: slice normalization -/

theorem sliceStep_ne_zero {s : Slice} (h : s.step ≠ some 0) : sliceStep s ≠ 0 := by
  unfold sliceStep
  cases hs : s.step with
  | none => simp
  | some t =>
    simp only [Option.getD_some]
    intro ht
    exact h (by rw [hs, ht])

theorem deslice_ok {s : Slice} (n : Nat) (h : s.step ≠ some 0) :
    deslice n s = Except.ok ⟨normStart s n, normStop s n, sliceStep s⟩ := by
  unfold deslice Slice.indices
  rw [if_neg (sliceStep_ne_zero h)]

theorem deslice_err {s : Slice} (n : Nat) (h : s.step = some 0) :
    deslice n s = Except.error Err.valueError := by
  unfold deslice Slice.indices
  rw [if_pos (by unfold sliceStep; rw [h]; rfl)]

theorem normRange_eq {s : Slice} (n : Nat) (h : s.step ≠ some 0) :
    normRange n s = rangeList (normStart s n) (normStop s n) (sliceStep s) := by
  unfold normRange
  rw [deslice_ok n h]
  rfl

theorem normStart_bounds (s : Slice) (n : Nat) :
    sliceLower s ≤ normStart s n ∧ normStart s n ≤ sliceUpper s n := by
  unfold normStart adjustIndex sliceLower sliceUpper
  cases s.start <;> repeat' split
  all_goals omega

theorem normStop_bounds (s : Slice) (n : Nat) :
    sliceLower s ≤ normStop s n ∧ normStop s n ≤ sliceUpper s n := by
  unfold normStop adjustIndex sliceLower sliceUpper
  cases s.stop <;> repeat' split
  all_goals omega

theorem lt_rangeLen_pos {a b st : Int} (hst : 0 < st) {k : Nat}
    (hk : k < rangeLen a b st) : a + k * st < b := by
  unfold rangeLen at hk
  rw [if_pos hst] at hk
  have h1 : ((k : Int) + 1) ≤ (b - a + st - 1) / st := by
    have := Int.lt_toNat.mp hk
    omega
  have h3 := (Int.le_ediv_iff_mul_le hst).mp h1
  rw [add_mul, one_mul] at h3
  linarith

theorem lt_rangeLen_neg {a b st : Int} (hst : st < 0) {k : Nat}
    (hk : k < rangeLen a b st) : b < a + k * st := by
  unfold rangeLen at hk
  rw [if_neg (by omega)] at hk
  have h1 : ((k : Int) + 1) ≤ (a - b - st - 1) / (-st) := by
    have := Int.lt_toNat.mp hk
    omega
  have h3 := (Int.le_ediv_iff_mul_le (by omega : (0 : Int) < -st)).mp h1
  rw [add_mul, one_mul, mul_neg] at h3
  linarith

theorem rangeList_mem {a b st : Int} {i : Int} (h : i ∈ rangeList a b st) :
    ∃ k : Nat, k < rangeLen a b st ∧ i = a + k * st := by
  simp only [rangeList, List.mem_map, List.mem_range] at h
  obtain ⟨k, hk, hke⟩ := h
  exact ⟨k, hk, hke.symm⟩

/-- Every element of the Index Range of a successfully normalized slice is a
valid index: in `[0, length)`. -/
theorem deslice_mem_bounds {s : Slice} {n : Nat} {r : PyRange}
    (h : deslice n s = Except.ok r) {i : Int} (hi : i ∈ r.toList) :
    0 ≤ i ∧ i < (n : Int) := by
  unfold deslice Slice.indices at h
  by_cases h0 : sliceStep s = 0
  · rw [if_pos h0] at h
    exact absurd h (by simp)
  · rw [if_neg h0] at h
    have hr : r = ⟨normStart s n, normStop s n, sliceStep s⟩ := by
      cases h
      rfl
    subst hr
    dsimp only [PyRange.toList] at hi
    obtain ⟨k, hk, rfl⟩ := rangeList_mem hi
    have hstart := normStart_bounds s n
    have hstop := normStop_bounds s n
    rcases lt_or_gt_of_ne h0 with hneg | hpos
    · have hub := lt_rangeLen_neg hneg hk
      have hlow : sliceLower s = -1 := by unfold sliceLower; rw [if_pos hneg]
      have hup : sliceUpper s n = (n : Int) - 1 := by unfold sliceUpper; rw [if_pos hneg]
      have hmul : (k : Int) * sliceStep s ≤ 0 :=
        mul_nonpos_of_nonneg_of_nonpos (by positivity) (le_of_lt hneg)
      constructor
      · omega
      · omega
    · have hub := lt_rangeLen_pos hpos hk
      have hlow : sliceLower s = 0 := by unfold sliceLower; rw [if_neg (by omega)]
      have hup : sliceUpper s n = (n : Int) := by unfold sliceUpper; rw [if_neg (by omega)]
      have hmul : (0 : Int) ≤ (k : Int) * sliceStep s :=
        mul_nonneg (by positivity) (le_of_lt hpos)
      constructor
      · omega
      · omega

/-- The elements of a range with non-zero step are pairwise distinct. -/
theorem rangeList_nodup {a b st : Int} (hst : st ≠ 0) : (rangeList a b st).Nodup := by
  unfold rangeList
  refine List.Nodup.map ?_ (List.nodup_range _)
  intro k j hkj
  simp only at hkj
  have h2 := mul_right_cancel₀ hst (add_left_cancel hkj)
  exact_mod_cast h2


/-! ## Lemmas: single-index access -/

theorem posintify_ok {n : Nat} {i : Int} (h0 : 0 ≤ i) (h1 : i < (n : Int)) :
    posintify n i = Except.ok i := by
  simp only [posintify, _posintify]
  rw [if_neg (show ¬ i < 0 by omega)]
  rw [if_neg (show ¬ (i < 0 ∨ (n : Int) ≤ i) by omega)]

theorem posintify_wrap {n : Nat} {i : Int} (h0 : -(n : Int) ≤ i) (h1 : i < 0) :
    posintify n i = Except.ok (i + n) := by
  simp only [posintify, _posintify]
  rw [if_pos h1]
  rw [if_neg (show ¬ (i + (n : Int) < 0 ∨ (n : Int) ≤ i + n) by omega)]

theorem posintify_err {n : Nat} {i : Int} (h : i < -(n : Int) ∨ (n : Int) ≤ i) :
    posintify n i = Except.error Err.outOfRange := by
  simp only [posintify, _posintify]
  split_ifs with h1 h2 h2 <;> first | rfl | omega

theorem prim_get_ok {α : Type} {xs : List α} {i : Int} (h0 : 0 ≤ i)
    (h1 : i.toNat < xs.length) :
    ∃ v, xs.get? i.toNat = some v ∧ prim_get xs i = Except.ok v := by
  refine ⟨xs.get ⟨i.toNat, h1⟩, List.get?_eq_get h1, ?_⟩
  unfold prim_get
  rw [if_pos h0, List.get?_eq_get h1]

theorem getLoop_ok {α : Type} (xs : List α) (idxs : List Int)
    (hb : ∀ i ∈ idxs, 0 ≤ i ∧ i.toNat < xs.length) :
    ∃ res, getLoop xs idxs = Except.ok res ∧ res.length = idxs.length ∧
      ∀ k : Nat, res.get? k = (idxs.get? k).bind (fun i => xs.get? i.toNat) := by
  induction idxs with
  | nil => exact ⟨[], rfl, rfl, fun k => by cases k <;> rfl⟩
  | cons i rest ih =>
    obtain ⟨h0, h1⟩ := hb i (by simp)
    obtain ⟨v, hv, hpg⟩ := prim_get_ok h0 h1
    obtain ⟨res, hres, hlen, hget⟩ := ih (fun j hj => hb j (by simp [hj]))
    refine ⟨v :: res, ?_, by simp [hlen], ?_⟩
    · simp only [getLoop]
      rw [hpg, hres]
    · intro k
      cases k with
      | zero => exact hv.symm
      | succ k => simpa using hget k

theorem getitem_int_eq_ok {α : Type} {xs : List α} {i j : Int}
    (hp : posintify xs.length i = Except.ok j) :
    getitem_int xs i = prim_get xs j := by
  unfold getitem_int
  rw [hp]

theorem getitem_int_eq_err {α : Type} {xs : List α} {i : Int} {e : Err}
    (hp : posintify xs.length i = Except.error e) :
    getitem_int xs i = Except.error e := by
  unfold getitem_int
  rw [hp]

/-- C3: single-index `get` on a length-`n` sequence: a non-negative in-range
index returns the element at that position via the primitive get; a negative
index with `-n ≤ i < 0` behaves as `get(n+i)`; and the operation fails with
the out-of-range condition (`IndexError`) exactly when `i < -n` or `i ≥ n`. -/
theorem getitem_int_spec {α : Type} (xs : List α) (i : Int) :
    (0 ≤ i → i < (xs.length : Int) →
      ∃ v, xs.get? i.toNat = some v ∧ getitem_int xs i = Except.ok v)
  ∧ (-(xs.length : Int) ≤ i → i < 0 →
      getitem_int xs i = getitem_int xs ((xs.length : Int) + i))
  ∧ (getitem_int xs i = Except.error Err.outOfRange ↔
      (i < -(xs.length : Int) ∨ (xs.length : Int) ≤ i)) := by
  refine ⟨?_, ?_, ?_, ?_⟩
  · intro h0 h1
    obtain ⟨v, hv, hpg⟩ := prim_get_ok h0 (by omega : i.toNat < xs.length)
    exact ⟨v, hv, by rw [getitem_int_eq_ok (posintify_ok h0 h1)]; exact hpg⟩
  · intro h0 h1
    rw [getitem_int_eq_ok (posintify_wrap h0 h1)]
    rw [getitem_int_eq_ok (posintify_ok (by omega : 0 ≤ (xs.length : Int) + i)
      (by omega : (xs.length : Int) + i < (xs.length : Int)))]
    rw [show i + (xs.length : Int) = (xs.length : Int) + i by omega]
  · intro h
    by_cases hpos : 0 ≤ i
    · by_cases hlt : i < (xs.length : Int)
      · obtain ⟨v, _, hpg⟩ := prim_get_ok hpos (by omega : i.toNat < xs.length)
        rw [getitem_int_eq_ok (posintify_ok hpos hlt), hpg] at h
        simp at h
      · right
        omega
    · by_cases hge : -(xs.length : Int) ≤ i
      · obtain ⟨v, _, hpg⟩ := prim_get_ok (by omega : 0 ≤ i + (xs.length : Int))
          (by omega : (i + (xs.length : Int)).toNat < xs.length)
        rw [getitem_int_eq_ok (posintify_wrap hge (by omega)), hpg] at h
        simp at h
      · left
        omega
  · intro h
    exact getitem_int_eq_err (posintify_err h)

/-- Concrete instance of C3: `u[-1]` equals `u[len(u) + -1]` on `[10,20,30]`. -/
theorem getitem_int_spec_witness :
    getitem_int ([10, 20, 30] : List Nat) (-1) =
      getitem_int ([10, 20, 30] : List Nat) ((List.length ([10, 20, 30] : List Nat) : Int) + -1) :=
  (getitem_int_spec [10, 20, 30] (-1)).2.1 (by decide) (by decide)

/-- C4: slice `get` with a non-zero-step slice always succeeds, its result
has the length of the normalized Index Range, and its `k`-th element is what
single-index `get` returns at the range's `k`-th index. -/
theorem getitem_slice_spec {α : Type} (xs : List α) (s : Slice) (h : s.step ≠ some 0) :
    ∃ res, getitem_slice xs s = Except.ok res ∧
      res.length = (normRange xs.length s).length ∧
      ∀ k i, (normRange xs.length s).get? k = some i →
        ∃ y, res.get? k = some y ∧ getitem_int xs i = Except.ok y := by
  have hds := deslice_ok (s := s) xs.length h
  have hb : ∀ i ∈ (⟨normStart s xs.length, normStop s xs.length, sliceStep s⟩ :
      PyRange).toList, 0 ≤ i ∧ i.toNat < xs.length := by
    intro i hi
    have := deslice_mem_bounds hds hi
    omega
  obtain ⟨res, hloop, hlen, hget⟩ := getLoop_ok xs _ hb
  have hnr : normRange xs.length s =
      (⟨normStart s xs.length, normStop s xs.length, sliceStep s⟩ : PyRange).toList := by
    unfold normRange
    rw [hds]
  refine ⟨res, ?_, ?_, ?_⟩
  · unfold getitem_slice
    rw [hds]
    exact hloop
  · rw [hnr]
    exact hlen
  · intro k i hk
    rw [hnr] at hk
    have hbi := hb i (List.get?_mem hk)
    obtain ⟨y, hy, hpg⟩ := prim_get_ok hbi.1 hbi.2
    refine ⟨y, ?_, ?_⟩
    · rw [hget k, hk]
      exact hy
    · rw [getitem_int_eq_ok (posintify_ok hbi.1 (by omega : i < (xs.length : Int)))]
      exact hpg

/-- Concrete instance of C4 at slice `[::-2]` over `[10,20,30,40,50]`. -/
theorem getitem_slice_spec_witness :
    ∃ res, getitem_slice ([10, 20, 30, 40, 50] : List Nat) ⟨none, none, some (-2)⟩ =
        Except.ok res ∧
      res.length =
        (normRange (List.length ([10, 20, 30, 40, 50] : List Nat))
          ⟨none, none, some (-2)⟩).length ∧
      ∀ k i, (normRange (List.length ([10, 20, 30, 40, 50] : List Nat))
          ⟨none, none, some (-2)⟩).get? k = some i →
        ∃ y, res.get? k = some y ∧
          getitem_int ([10, 20, 30, 40, 50] : List Nat) i = Except.ok y :=
  getitem_slice_spec [10, 20, 30, 40, 50] ⟨none, none, some (-2)⟩ (by decide)

/-! ## Lemmas: primitive mutation -/

theorem prim_del_ok {α : Type} {xs : List α} {i : Int} (h0 : 0 ≤ i)
    (h1 : i.toNat < xs.length) :
    prim_del xs i = Except.ok (xs.eraseIdx i.toNat) := by
  unfold prim_del
  rw [if_pos ⟨h0, h1⟩]

theorem prim_set_ok {α : Type} {xs : List α} {i : Int} (v : α) (h0 : 0 ≤ i)
    (h1 : i.toNat < xs.length) :
    prim_set xs i v = Except.ok (xs.set i.toNat v) := by
  unfold prim_set
  rw [if_pos ⟨h0, h1⟩]

theorem prim_insert_ok {α : Type} {xs : List α} {i : Int} (v : α) (h0 : 0 ≤ i)
    (h1 : i.toNat ≤ xs.length) :
    prim_insert xs i v = Except.ok (listInsertAt xs i.toNat v) := by
  unfold prim_insert
  rw [if_pos ⟨h0, h1⟩]

theorem eraseIdx_drop {α : Type} (xs : List α) (m : Nat) (h : m < xs.length) :
    (xs.eraseIdx m).drop m = xs.drop (m + 1) := by
  induction xs generalizing m with
  | nil => simp at h
  | cons x xs ih =>
    cases m with
    | zero => rfl
    | succ m => simpa using ih m (by simpa using h)

/-- Deleting positions `m-1, m-2, ..., 0` (descending) from a list drops its
first `m` elements, every primitive delete receiving an in-range index. -/
theorem delLoop_desc {α : Type} (m : Nat) : ∀ xs : List α, m ≤ xs.length →
    delLoop xs (((List.range m).map (fun k : Nat => (k : Int))).reverse) =
      (xs.drop m, none) := by
  induction m with
  | zero =>
    intro xs h
    simp [delLoop]
  | succ m ih =>
    intro xs h
    have hm : ((m : Int)).toNat = m := by omega
    have hlt : m < xs.length := by omega
    rw [List.range_succ, List.map_append, List.reverse_append]
    simp only [List.map_cons, List.map_nil, List.reverse_cons, List.reverse_nil,
      List.nil_append, List.singleton_append]
    simp only [delLoop]
    rw [prim_del_ok (by omega : (0 : Int) ≤ (m : Int)) (by rw [hm]; exact hlt), hm]
    have hrec := ih (xs.eraseIdx m)
      (by rw [List.length_eraseIdx, if_pos hlt]; omega)
    exact hrec.trans (by rw [eraseIdx_drop xs m hlt])

theorem listInsertAt_length {α : Type} : ∀ (ys : List α) (p : Nat) (v : α),
    (listInsertAt ys p v).length = ys.length + 1
  | ys, 0, v => by simp [listInsertAt]
  | [], _ + 1, _ => rfl
  | y :: ys, p + 1, v => by
    simp only [listInsertAt, List.length_cons, listInsertAt_length ys p v]

theorem listInsertAt_take {α : Type} : ∀ (ys : List α) (p : Nat) (v : α),
    p ≤ ys.length → (listInsertAt ys p v).take (p + 1) = ys.take p ++ [v]
  | _, 0, _, _ => by simp [listInsertAt]
  | [], p + 1, _, h => by simp at h
  | y :: ys, p + 1, v, h => by
    simp only [listInsertAt, List.take_succ_cons]
    rw [listInsertAt_take ys p v (by simpa using h)]
    rfl

theorem listInsertAt_drop {α : Type} : ∀ (ys : List α) (p : Nat) (v : α),
    (listInsertAt ys p v).drop (p + 1) = ys.drop p
  | _, 0, _ => by simp [listInsertAt]
  | [], p + 1, _ => by simp [listInsertAt]
  | y :: ys, p + 1, v => by
    simp only [listInsertAt, List.drop_succ_cons]
    exact listInsertAt_drop ys p v

/-- Inserting the elements of `vs` one at a time at consecutive positions
`p, p+1, ...` splices `vs` into the list at position `p`; every primitive
insert receives an index within `[0, current length]`. -/
theorem insertLoop_spec {α : Type} (vs : List α) : ∀ (ys : List α) (p : Nat),
    p ≤ ys.length →
    insertLoop ys (p : Int) vs = (ys.take p ++ vs ++ ys.drop p, none) := by
  induction vs with
  | nil =>
    intro ys p h
    simp [insertLoop]
  | cons v vs ih =>
    intro ys p h
    simp only [insertLoop]
    rw [prim_insert_ok v (by omega : (0 : Int) ≤ (p : Int))
      (by omega : ((p : Int)).toNat ≤ ys.length)]
    have hm : ((p : Int)).toNat = p := by omega
    rw [hm]
    have hcast : (p : Int) + 1 = ((p + 1 : Nat) : Int) := by omega
    rw [hcast]
    refine (ih (listInsertAt ys p v) (p + 1)
      (by rw [listInsertAt_length]; omega)).trans ?_
    rw [listInsertAt_take ys p v h, listInsertAt_drop ys p v]
    simp

theorem setitem_slice_eq_contig {α : Type} {xs values : List α} {s : Slice} {r : PyRange}
    (hds : deslice xs.length s = Except.ok r)
    (hc : ¬ (s.step.isSome = true ∧ s.step ≠ some 1)) :
    setitem_slice xs s values = contigAssign xs r values := by
  unfold setitem_slice
  rw [hds]
  exact if_neg hc

theorem setitem_slice_eq_ext {α : Type} {xs values : List α} {s : Slice} {r : PyRange}
    (hds : deslice xs.length s = Except.ok r)
    (hc : s.step.isSome = true ∧ s.step ≠ some 1) :
    setitem_slice xs s values = extendedAssign xs r values := by
  unfold setitem_slice
  rw [hds]
  exact if_pos hc


/-- C1 (code bug witness): deleting the slice `[::-1]` from `[0,1,2,3,4]`
iterates `reversed(range(4, -1, -1))`, i.e. indices `0,1,2,3,4` in
ascending order; after three deletes the container is `[1,3]` and the
fourth primitive delete receives index `3` with current length `2` — out
of the primitive's contract — leaving the container partially mutated.
The spec requires descending order with every delete in range (which
would leave `[]`, as reference `list` does). -/
theorem delitem_slice_negative_step_bug :
    delitem_slice ([0, 1, 2, 3, 4] : List Nat) ⟨none, none, some (-1)⟩ =
      ([1, 3], some Err.primViolation) := by
  decide

/-- C2 (counterexample): on `[10,20,30]` (length 3), the self-assignment
`a[:-1] = a` yields `[10,20,30,30]` of length `4`, not the claimed length
`2*3 - 1 = 5`. -/
theorem setitem_slice_self_counterexample :
    setitem_slice_self ([10, 20, 30] : List Nat) ⟨none, some (-1), none⟩ =
      ([10, 20, 30, 30], none) ∧
    ¬ (([10, 20, 30, 30] : List Nat).length = 2 * 3 - 1) := by
  exact ⟨by decide, by decide⟩

/-- C2 (amended): on a sequence of length `n ≥ 1`, the contiguous-slice
self-assignment `container[:-1] = container` terminates and yields the
original `n` elements followed by the original last element (length
`n + 1`, matching the code comment "same net effect as `a.append(a[-1])`"),
because the source is snapshotted before any mutation. -/
theorem setitem_slice_self_spec {α : Type} (xs : List α) (h : 1 ≤ xs.length) :
    setitem_slice_self xs ⟨none, some (-1), none⟩ =
      (xs ++ xs.drop (xs.length - 1), none) ∧
    (xs ++ xs.drop (xs.length - 1)).length = xs.length + 1 := by
  have hstart : normStart (⟨none, some (-1), none⟩ : Slice) xs.length = 0 := by
    simp [normStart, sliceLower, sliceStep]
  have hstop : normStop (⟨none, some (-1), none⟩ : Slice) xs.length =
      (xs.length : Int) - 1 := by
    simp only [normStop, adjustIndex, sliceLower, sliceUpper, sliceStep, Option.getD]
    split_ifs <;> omega
  have hds : deslice xs.length (⟨none, some (-1), none⟩ : Slice) =
      Except.ok ⟨0, (xs.length : Int) - 1, 1⟩ := by
    rw [deslice_ok xs.length (by simp : (⟨none, some (-1), none⟩ : Slice).step ≠ some 0)]
    rw [hstart, hstop]
    rfl
  have htl : (⟨0, (xs.length : Int) - 1, 1⟩ : PyRange).toList =
      (List.range (xs.length - 1)).map (fun k : Nat => (k : Int)) := by
    simp only [PyRange.toList, rangeList, rangeLen]
    rw [if_pos (by norm_num : (0 : Int) < 1)]
    have h1 : (((xs.length : Int) - 1 - 0 + 1 - 1) / 1).toNat = xs.length - 1 := by
      rw [Int.ediv_one]
      omega
    rw [h1]
    simp
  constructor
  · unfold setitem_slice_self
    rw [setitem_slice_eq_contig hds (by simp)]
    unfold contigAssign
    rw [htl, delLoop_desc (xs.length - 1) xs (by omega)]
    have hins := insertLoop_spec xs (xs.drop (xs.length - 1)) 0 (by omega)
    simp only [Nat.cast_zero, List.take_zero, List.drop_zero, List.nil_append] at hins
    exact hins
  · simp only [List.length_append, List.length_drop]
    omega

/-- Concrete instance of amended C2 at `[10, 20]`. -/
theorem setitem_slice_self_spec_witness :
    setitem_slice_self ([10, 20] : List Nat) ⟨none, some (-1), none⟩ =
      (([10, 20] : List Nat) ++ List.drop (List.length ([10, 20] : List Nat) - 1) [10, 20],
        none) ∧
    (([10, 20] : List Nat) ++
        List.drop (List.length ([10, 20] : List Nat) - 1) [10, 20]).length =
      List.length ([10, 20] : List Nat) + 1 :=
  setitem_slice_self_spec [10, 20] (by decide)

/-- C10: a slice with step `0` makes `get`, `set` and `delete` fail with the
value-error condition raised by slice normalization, before any primitive
operation runs, so the container is returned unchanged. -/
theorem zero_step_slice_spec {α : Type} (xs : List α) (s : Slice) (values : List α)
    (h : s.step = some 0) :
    getitem_slice xs s = Except.error Err.valueError ∧
    delitem_slice xs s = (xs, some Err.valueError) ∧
    setitem_slice xs s values = (xs, some Err.valueError) := by
  have hds := deslice_err (s := s) xs.length h
  refine ⟨?_, ?_, ?_⟩
  · unfold getitem_slice
    rw [hds]
  · unfold delitem_slice
    rw [hds]
  · unfold setitem_slice
    rw [hds]

/-- Concrete instance of C10 at `[1, 2]` with slice `[::0]`. -/
theorem zero_step_slice_spec_witness :
    getitem_slice ([1, 2] : List Nat) ⟨none, none, some 0⟩ = Except.error Err.valueError ∧
    delitem_slice ([1, 2] : List Nat) ⟨none, none, some 0⟩ = ([1, 2], some Err.valueError) ∧
    setitem_slice ([1, 2] : List Nat) ⟨none, none, some 0⟩ [9] =
      ([1, 2], some Err.valueError) :=
  zero_step_slice_spec [1, 2] ⟨none, none, some 0⟩ [9] rfl

theorem setitem_int_ok {α : Type} {xs : List α} {i : Int} (v : α) (h0 : 0 ≤ i)
    (h1 : i.toNat < xs.length) :
    setitem_int xs i v = Except.ok (xs.set i.toNat v) := by
  unfold setitem_int
  rw [posintify_ok h0 (by omega : i < (xs.length : Int))]
  exact prim_set_ok v h0 h1

/-- Pairwise assignment through the wrapped integer `__setitem__` over
distinct in-range indices: succeeds, preserves the length, stores each
value at its index, and leaves other positions unchanged. -/
theorem setLoop_spec {α : Type} : ∀ (idxs : List Int) (values : List α) (xs : List α),
    idxs.length = values.length →
    (∀ i ∈ idxs, 0 ≤ i ∧ i.toNat < xs.length) →
    idxs.Nodup →
    ∃ res, setLoop xs (idxs.zip values) = (res, none) ∧
      res.length = xs.length ∧
      (∀ (k : Nat) (i : Int) (v : α), idxs.get? k = some i → values.get? k = some v →
        res.get? i.toNat = some v) ∧
      (∀ j : Nat, (∀ i ∈ idxs, i.toNat ≠ j) → res.get? j = xs.get? j) := by
  intro idxs
  induction idxs with
  | nil =>
    intro values xs _ _ _
    refine ⟨xs, rfl, rfl, ?_, fun _ _ => rfl⟩
    intro k i v hk _
    simp at hk
  | cons i itl ih =>
    intro values xs hlen hb hnd
    cases values with
    | nil => simp at hlen
    | cons v vtl =>
      obtain ⟨h0, h1⟩ := hb i (by simp)
      have hstep : setLoop xs ((i :: itl).zip (v :: vtl)) =
          setLoop (xs.set i.toNat v) (itl.zip vtl) := by
        simp only [List.zip_cons_cons, setLoop]
        rw [setitem_int_ok v h0 h1]
        rfl
      obtain ⟨hni, hnd'⟩ := List.nodup_cons.mp hnd
      obtain ⟨res, hres, hrlen, hsets, hout⟩ := ih vtl (xs.set i.toNat v)
        (by simpa using hlen)
        (by
          intro j hj
          have := hb j (by simp [hj])
          simpa [List.length_set] using this)
        hnd'
      refine ⟨res, hstep.trans hres, by rw [hrlen, List.length_set], ?_, ?_⟩
      · intro k i' v' hk hv
        cases k with
        | zero =>
          injection hk with hik
          injection hv with hvk
          rw [← hik, ← hvk]
          have hne : ∀ j ∈ itl, j.toNat ≠ i.toNat := by
            intro j hj
            have hji : j ≠ i := fun he => hni (he ▸ hj)
            have hjb := hb j (by simp [hj])
            omega
          rw [hout i.toNat hne, List.get?_set_eq, List.get?_eq_get h1]
          rfl
        | succ k =>
          exact hsets k i' v' hk hv
      · intro j hj
        have hjne : i.toNat ≠ j := hj i (by simp)
        rw [hout j (fun i' hi' => hj i' (by simp [hi']))]
        exact List.get?_set_ne _ _ hjne

/-- C5: extended-slice assignment (step present, not 1, non-zero so the
Index Range exists): fails with the size-mismatch condition carrying both
lengths exactly when the source length differs from the range length, and
then the container is unchanged (the check precedes any mutation); on
matching lengths every range position receives the corresponding source
element, pairwise in range order. -/
theorem setitem_extended_slice_spec {α : Type} (xs values : List α) (s : Slice)
    (st : Int) (hs : s.step = some st) (h1 : st ≠ 1) (h0 : st ≠ 0) :
    (values.length ≠ (normRange xs.length s).length →
      setitem_slice xs s values =
        (xs, some (Err.sizeMismatch values.length (normRange xs.length s).length)))
  ∧ (values.length = (normRange xs.length s).length →
      ∃ res, setitem_slice xs s values = (res, none) ∧ res.length = xs.length ∧
        ∀ (k : Nat) (i : Int) (v : α), (normRange xs.length s).get? k = some i →
          values.get? k = some v → res.get? i.toNat = some v) := by
  have hstep0 : s.step ≠ some 0 := by
    rw [hs]
    simp [h0]
  have hds := deslice_ok (s := s) xs.length hstep0
  have hdisp : s.step.isSome = true ∧ s.step ≠ some 1 :=
    ⟨by rw [hs]; rfl, by rw [hs]; simp [h1]⟩
  have hnr : normRange xs.length s =
      (⟨normStart s xs.length, normStop s xs.length, sliceStep s⟩ : PyRange).toList := by
    unfold normRange
    rw [hds]
  constructor
  · intro hne
    rw [setitem_slice_eq_ext hds hdisp]
    simp only [extendedAssign]
    rw [hnr] at hne
    rw [if_pos hne, hnr]
  · intro heq
    rw [hnr] at heq
    have hbounds : ∀ i ∈ (⟨normStart s xs.length, normStop s xs.length, sliceStep s⟩ :
        PyRange).toList, 0 ≤ i ∧ i.toNat < xs.length := by
      intro i hi
      have := deslice_mem_bounds hds hi
      omega
    have hnodup : (⟨normStart s xs.length, normStop s xs.length, sliceStep s⟩ :
        PyRange).toList.Nodup := rangeList_nodup (sliceStep_ne_zero hstep0)
    obtain ⟨res, hres, hrlen, hsets, _⟩ := setLoop_spec
      (⟨normStart s xs.length, normStop s xs.length, sliceStep s⟩ : PyRange).toList
      values xs heq.symm hbounds hnodup
    refine ⟨res, ?_, hrlen, ?_⟩
    · rw [setitem_slice_eq_ext hds hdisp]
      simp only [extendedAssign]
      rw [if_neg (by omega)]
      exact hres
    · intro k i v hk hv
      rw [hnr] at hk
      exact hsets k i v hk hv

/-- Concrete instance of C5: `a[::2] = [7]` on a length-4 container is a
size mismatch (1 value for a range of size 2) and leaves `a` unchanged. -/
theorem setitem_extended_slice_spec_witness :
    setitem_slice ([10, 20, 30, 40] : List Nat) ⟨none, none, some 2⟩ [7] =
      ([10, 20, 30, 40],
        some (Err.sizeMismatch (List.length ([7] : List Nat))
          (normRange (List.length ([10, 20, 30, 40] : List Nat))
            ⟨none, none, some 2⟩).length)) :=
  (setitem_extended_slice_spec [10, 20, 30, 40] [7] ⟨none, none, some 2⟩ 2 rfl
    (by decide) (by decide)).1 (by decide)

/-- C6: the augmented mapping `get`: a successful raw lookup returns its
value (hook not invoked); on a miss with a hook defined, the hook runs
exactly once and its result — value or failure, with unchanged kind and
payload — is returned; on a miss with no hook, the key-not-found condition
is raised. -/
theorem mapGetAug_spec {κ ν : Type} (raw : κ → Option ν)
    (hook : Option (κ → Except Err ν)) (k : κ) :
    (∀ v, raw k = some v → mapGetAug raw hook k = (Except.ok v, 0))
  ∧ (∀ f, raw k = none → hook = some f → mapGetAug raw hook k = (f k, 1))
  ∧ (raw k = none → hook = none →
      mapGetAug raw hook k = (Except.error Err.keyNotFound, 0)) := by
  refine ⟨?_, ?_, ?_⟩
  · intro v hv
    unfold mapGetAug
    rw [hv]
  · intro f hr hh
    unfold mapGetAug
    rw [hr, hh]
  · intro hr hh
    unfold mapGetAug
    rw [hr, hh]

/-- Concrete instance of C6: a missing key with a failing hook propagates
the hook's failure unchanged, after exactly one hook invocation. -/
theorem mapGetAug_spec_witness :
    mapGetAug (fun n : Nat => if n = 0 then some 5 else none)
      (some fun _ : Nat => (Except.error Err.valueError : Except Err Nat)) 3 =
      (Except.error Err.valueError, 1) :=
  (mapGetAug_spec (fun n : Nat => if n = 0 then some 5 else none)
    (some fun _ : Nat => (Except.error Err.valueError : Except Err Nat)) 3).2.1
    (fun _ => (Except.error Err.valueError : Except Err Nat)) rfl rfl

/-- C7: the synthesized `contains` and `get`-with-default consult only the
raw lookup — true/the value on `Found`, false/the default on `NotFound` —
and never invoke the fallback hook (invocation count 0 for every hook,
defined or not). -/
theorem map_derived_ops_spec {κ ν : Type} (raw : κ → Option ν)
    (hook : Option (κ → Except Err ν)) (k : κ) (d : ν) :
    mapContains raw hook k = ((raw k).isSome, 0)
  ∧ mapGetDefault raw hook k d = ((raw k).getD d, 0) := by
  cases hr : raw k <;> simp [mapContains, mapGetDefault, hr]

/-- C8: the augmented `insert` never fails with an out-of-range condition:
the index is wrapped (adding the length when negative) then clamped into
`[0, length]`, and the primitive insert is always called with that clamped
index. -/
theorem insert_aug_spec {α : Type} (xs : List α) (i : Int) (v : α) :
    posinttruncify xs.length i =
      max 0 (min (if i < 0 then i + (xs.length : Int) else i) (xs.length : Int))
  ∧ 0 ≤ posinttruncify xs.length i
  ∧ posinttruncify xs.length i ≤ (xs.length : Int)
  ∧ insert_aug xs i v =
      Except.ok (listInsertAt xs (posinttruncify xs.length i).toNat v) := by
  have hcl : posinttruncify xs.length i =
      max 0 (min (if i < 0 then i + (xs.length : Int) else i) (xs.length : Int)) := by
    simp only [posinttruncify, _posintify]
    split_ifs <;> omega
  refine ⟨hcl, ?_, ?_, ?_⟩
  · rw [hcl]
    omega
  · rw [hcl]
    omega
  · unfold insert_aug
    exact prim_insert_ok v (by rw [hcl]; omega) (by rw [hcl]; omega)

/-- C9 (counterexample): attaching either helper to a non-conforming type
named "Widget" fails at attachment time, but the configuration-error
condition is the fixed message "can only help mappings" (resp. "can only
help sequences"), which does not name the offending type. -/
theorem attach_reject_counterexample :
    mapping_helper false "Widget" (fun _ : Nat => (none : Option Nat)) none =
      Except.error "can only help mappings"
  ∧ sequence_helper_attach false "Widget" = Except.error "can only help sequences"
  ∧ occursIn "Widget".toList "can only help mappings".toList = false
  ∧ occursIn "Widget".toList "can only help sequences".toList = false := by
  refine ⟨rfl, rfl, ?_, ?_⟩ <;> decide

/-- C9 (amended): attaching either helper to any type that fails the
capability check is rejected at attachment time — before any augmented
operation is produced — with a configuration-error condition carrying the
fixed message naming the required capability (not the offending type). -/
theorem attach_reject_spec {κ ν : Type} (typeName : String) (raw : κ → Option ν)
    (hook : Option (κ → Except Err ν)) :
    mapping_helper false typeName raw hook = Except.error "can only help mappings"
  ∧ sequence_helper_attach false typeName = Except.error "can only help sequences" :=
  ⟨rfl, rfl⟩

end CollectionHelpers
